import Mathlib

/-!
Verification development for the distributed stencil convolution engine of
vexcl (`vexcl/stencil.hpp`): a shallow embedding of the halo exchange
(`stencil_base<T>::exchange_halos`), the in-kernel boundary read policy
(`detail::define_read_x`), the bodies of the two generated kernels
(`stencil<T>::slow_conv`, `stencil<T>::fast_conv`), strategy selection
(`stencil<T>::init`), the dispatcher (`stencil<T>::convolve`), the
constructor assertions (`stencil_base<T>::stencil_base`) and the deferred
convolution expression (`conv`, `operator*`).

Element values are modelled as `Int`.  Machine indices (`size_t`,
`ptrdiff_t`, `int`) are modelled as `Nat`/`Int`; for the quantities involved
(partition sizes, halo widths) no overflow is reachable.  The flat host halo
buffer `hbuf` of the C++ code (one slot of `lhalo + rhalo` elements per
partition, slot `d` occupying flat indices `[d*(lhalo+rhalo), (d+1)*(lhalo+rhalo))`)
is modelled as a per-slot function `Nat → Nat → Int`; every buffer access in
`exchange_halos` stays inside the slot of the partition being processed, so
this indexing is exact.
-/

namespace VexStencil

/-- Contiguous buffer write: `writeRange f off len g` is `f` with the values
`g 0, …, g (len-1)` stored at offsets `off, …, off+len-1`. -/
def writeRange (f : Nat → Int) (off len : Nat) (g : Nat → Int) : Nat → Int :=
  fun k => if off ≤ k ∧ k < off + len then g (k - off) else f k

/-- Start offset of partition `d`: prefix sum of the partition sizes
(models `x.part_start(d)` of the vector collaborator). -/
def part_start (ps : List Nat) (d : Nat) : Nat := (ps.take d).sum

/-- Size of partition `d` (models `x.part_size(d)`). -/
def part_size (ps : List Nat) (d : Nat) : Nat := ps.getD d 0

/-- The partition owning global index `g`, skipping empty partitions:
`some d` when `part_start ps d ≤ g < part_start ps d + part_size ps d`. -/
def owner : List Nat → Nat → Option Nat
  | [], _ => none
  | p :: ps, g => if g < p then some 0 else (owner ps (g - p)).map (fun d => d + 1)

/-- The boundary-aware read policy generated by `detail::define_read_x`:
local element for in-range offsets, uploaded halo element (or zero fill
outside the transferred window) towards a neighbour, edge clamp at a true
global boundary. -/
def read_x (g_id : Int) (n : Nat) (has_left has_right : Bool)
    (lhalo rhalo : Int) (xloc xrem : Int → Int) : Int :=
  if 0 ≤ g_id ∧ g_id < (n : Int) then xloc g_id
  else if g_id < 0 then
    if has_left then (if 0 ≤ lhalo + g_id then xrem (lhalo + g_id) else 0) else xloc 0
  else
    if has_right then (if g_id < (n : Int) + rhalo then xrem (lhalo + g_id - (n : Int)) else 0)
    else xloc ((n : Int) - 1)

/-- Accumulated sum of the generated `slow_conv` kernel body: the C loop
`for (j = -lhalo; j <= rhalo; j++) sum += s[lhalo+j]*read_x(idx+j,…)`
reindexed by `j' = lhalo + j ∈ [0, lhalo+rhalo+1)`. -/
def slow_conv_sum (n : Nat) (has_left has_right : Bool) (lhalo rhalo : Nat)
    (s : Nat → Int) (xloc xrem : Int → Int) (idx : Nat) : Int :=
  Finset.sum (Finset.range (lhalo + rhalo + 1)) fun j =>
    s j * read_x ((idx : Int) + (j : Int) - (lhalo : Int)) n has_left has_right
      (lhalo : Int) (rhalo : Int) xloc xrem

/-- Per-element body of the generated `slow_conv` kernel: weighted sum over
the stencil window, then the `alpha`-branch store
(`if (alpha) y[idx] = alpha*y[idx] + beta*sum; else y[idx] = beta*sum;`). -/
def slow_conv_elem (n : Nat) (has_left has_right : Bool) (lhalo rhalo : Nat)
    (s : Nat → Int) (xloc xrem : Int → Int) (yold alpha beta : Int) (idx : Nat) : Int :=
  if alpha ≠ 0
  then alpha * yold + beta * slow_conv_sum n has_left has_right lhalo rhalo s xloc xrem idx
  else beta * slow_conv_sum n has_left has_right lhalo rhalo s xloc xrem idx

/-- Shared coefficient tile of the `fast_conv` kernel:
`async_work_group_copy(S, s, lhalo + rhalo + 1, 0)` stages the first
`lhalo+rhalo+1` coefficients. -/
def fast_S (lhalo rhalo : Nat) (s : Nat → Int) (j : Nat) : Int :=
  if j < lhalo + rhalo + 1 then s j else 0

/-- Shared input tile of the `fast_conv` kernel, for the workgroup whose
window starts at global index `idx - idx % block_size`: the cooperative
loop stores `X[i] = read_x(g_id - l_id + i - lhalo, …)` for every
`0 ≤ i < block_size + lhalo + rhalo`. -/
def fast_X (n : Nat) (has_left has_right : Bool) (lhalo rhalo : Nat)
    (xloc xrem : Int → Int) (block_size idx : Nat) (i : Int) : Int :=
  if 0 ≤ i ∧ i < (block_size : Int) + (lhalo : Int) + (rhalo : Int)
  then read_x (((idx : Int) - ((idx % block_size : Nat) : Int)) + i - (lhalo : Int))
    n has_left has_right (lhalo : Int) (rhalo : Int) xloc xrem
  else 0

/-- Accumulated sum of the `fast_conv` kernel body:
`sum += S[lhalo+j]*X[lhalo+l_id+j]` for `j = -lhalo..rhalo`, reindexed by
`j' = lhalo + j`, so it reads `X[l_id + j']`.  As OpenCL guarantees the
global size is a multiple of the workgroup size, the work item storing
output `idx` has `l_id = idx % block_size`. -/
def fast_conv_sum (n : Nat) (has_left has_right : Bool) (lhalo rhalo : Nat)
    (s : Nat → Int) (xloc xrem : Int → Int) (block_size idx : Nat) : Int :=
  Finset.sum (Finset.range (lhalo + rhalo + 1)) fun j =>
    fast_S lhalo rhalo s j
      * fast_X n has_left has_right lhalo rhalo xloc xrem block_size idx
          (((idx % block_size : Nat) : Int) + (j : Int))

/-- Per-element body of the generated `fast_conv` kernel: tile-staged sum,
then the same `alpha`-branch store as the generic kernel. -/
def fast_conv_elem (n : Nat) (has_left has_right : Bool) (lhalo rhalo : Nat)
    (s : Nat → Int) (xloc xrem : Int → Int) (yold alpha beta : Int)
    (block_size : Nat) (idx : Nat) : Int :=
  if alpha ≠ 0
  then alpha * yold
    + beta * fast_conv_sum n has_left has_right lhalo rhalo s xloc xrem block_size idx
  else beta * fast_conv_sum n has_left has_right lhalo rhalo s xloc xrem block_size idx

/-- Left-read window for partition `d` in `exchange_halos`:
`end = part_start(d)`, `begin = end >= lhalo ? end - lhalo : 0` (exactly
truncated subtraction). -/
def l_begin (ps : List Nat) (lhalo d : Nat) : Nat := part_start ps d - lhalo

/-- Number of elements actually read from the left neighbour side. -/
def l_size (ps : List Nat) (lhalo d : Nat) : Nat := part_start ps d - l_begin ps lhalo d

/-- Right-read window start: `begin = part_start(d+1)`. -/
def r_begin (ps : List Nat) (d : Nat) : Nat := part_start ps (d + 1)

/-- Right-read window end: `min(begin + rhalo, x.size())`. -/
def r_end (ps : List Nat) (rhalo d : Nat) : Nat := min (r_begin ps d + rhalo) ps.sum

/-- Number of elements actually read from the right neighbour side. -/
def r_size (ps : List Nat) (rhalo d : Nat) : Nat := r_end ps rhalo d - r_begin ps d

/-- Read phase of `exchange_halos` restricted to the slot of partition `d`:
the left read stores `l_size` elements at offsets `[lhalo - l_size, lhalo)`,
the right read stores `r_size` elements at offsets `[lhalo, lhalo + r_size)`. -/
def slot_read (ps : List Nat) (lhalo rhalo : Nat) (x : Nat → Int) (d : Nat)
    (h0 : Nat → Int) (k : Nat) : Int :=
  let h1 : Nat → Int := fun j =>
    if 0 < d ∧ 0 < lhalo
    then writeRange h0 (lhalo - l_size ps lhalo d) (l_size ps lhalo d)
      (fun i => x (l_begin ps lhalo d + i)) j
    else h0 j
  if d + 1 < ps.length ∧ 0 < rhalo
  then writeRange h1 lhalo (r_size ps rhalo d) (fun i => x (r_begin ps d + i)) k
  else h1 k

/-- Write (fill) phase of `exchange_halos` restricted to the slot of
partition `d`: missing leading slots `[0, lhalo - l_size)` are filled with
the first read element (`hbuf[lhalo - l_size]`) or with `x[0]` when nothing
was read; missing trailing slots `[lhalo + r_size, lhalo + rhalo)` are
filled with the last read element (`hbuf[lhalo + r_size - 1]`) or with
`x[x.size() - 1]` when nothing was read. -/
def slot_write (ps : List Nat) (lhalo rhalo : Nat) (x : Nat → Int) (d : Nat)
    (h : Nat → Int) (k : Nat) : Int :=
  let ls := l_size ps lhalo d
  let rs := r_size ps rhalo d
  let h1 : Nat → Int := fun j =>
    if 0 < d ∧ 0 < lhalo then
      (if 0 < ls
       then writeRange h 0 (lhalo - ls) (fun _ => h (lhalo - ls)) j
       else writeRange h 0 (lhalo - ls) (fun _ => x 0) j)
    else h j
  if d + 1 < ps.length ∧ 0 < rhalo then
    (if 0 < rs
     then writeRange h1 (lhalo + rs) (lhalo + rhalo - (lhalo + rs))
       (fun _ => h1 (lhalo + rs - 1)) k
     else writeRange h1 (lhalo + rs) (lhalo + rhalo - (lhalo + rs))
       (fun _ => x (ps.sum - 1)) k)
  else h1 k

/-- Host halo buffer after `exchange_halos`: early return when there is a
single partition or no halo; otherwise every nonempty partition's slot goes
through the read phase and then the fill phase (the slot of an empty
partition is skipped by `continue`). -/
def exchange_hbuf (ps : List Nat) (lhalo rhalo : Nat) (x : Nat → Int)
    (h0 : Nat → Nat → Int) : Nat → Nat → Int :=
  if ps.length ≤ 1 ∨ lhalo + rhalo = 0 then h0
  else fun d =>
    if part_size ps d ≠ 0
    then slot_write ps lhalo rhalo x d (slot_read ps lhalo rhalo x d (h0 d))
    else h0 d

/-- Device halo buffers after `exchange_halos`: partition `d`'s device
buffer receives its merged host slot exactly when the partition is nonempty
and it has a neighbour on a side with a nonzero halo
(`(d > 0 && lhalo > 0) || (d + 1 < queue.size() && rhalo > 0)`). -/
def exchange_dbuf (ps : List Nat) (lhalo rhalo : Nat) (x : Nat → Int)
    (h0 db0 : Nat → Nat → Int) : Nat → Nat → Int :=
  if ps.length ≤ 1 ∨ lhalo + rhalo = 0 then db0
  else fun d =>
    if part_size ps d ≠ 0 ∧ ((0 < d ∧ 0 < lhalo) ∨ (d + 1 < ps.length ∧ 0 < rhalo))
    then slot_write ps lhalo rhalo x d (slot_read ps lhalo rhalo x d (h0 d))
    else db0 d

/-- Number of `read_data` calls issued by `exchange_halos`. -/
def exchange_read_count (ps : List Nat) (lhalo rhalo : Nat) : Nat :=
  if ps.length ≤ 1 ∨ lhalo + rhalo = 0 then 0
  else Finset.sum (Finset.range ps.length) fun d =>
    if part_size ps d ≠ 0 then
      (if 0 < d ∧ 0 < lhalo then 1 else 0)
        + (if d + 1 < ps.length ∧ 0 < rhalo then 1 else 0)
    else 0

/-- Number of `enqueueWriteBuffer` uploads issued by `exchange_halos`. -/
def exchange_upload_count (ps : List Nat) (lhalo rhalo : Nat) : Nat :=
  if ps.length ≤ 1 ∨ lhalo + rhalo = 0 then 0
  else Finset.sum (Finset.range ps.length) fun d =>
    if part_size ps d ≠ 0 ∧ ((0 < d ∧ 0 < lhalo) ∨ (d + 1 < ps.length ∧ 0 < rhalo))
    then 1 else 0

/-- Mutable state touched by `exchange_halos`: the input vector (read only),
the host halo buffer and the per-partition device halo buffers. -/
structure HaloState where
  x : Nat → Int
  hbuf : Nat → Nat → Int
  dbuf : Nat → Nat → Int

/-- `stencil_base<T>::exchange_halos` as a state transformer. -/
def exchange_halos (ps : List Nat) (lhalo rhalo : Nat) (st : HaloState) : HaloState :=
  ⟨st.x, exchange_hbuf ps lhalo rhalo st.x st.hbuf,
    exchange_dbuf ps lhalo rhalo st.x st.hbuf st.dbuf⟩

/-- Kernel strategy chosen by `stencil<T>::init`. -/
inductive Strat
  | slow
  | fast
  deriving DecidableEq

/-- Strategy selection of `stencil<T>::init`:
`if (is_cpu(device) || width > 64)` take the generic kernel, else the tiled
one. -/
def select_strat (isCpu : Bool) (width : Nat) : Strat :=
  if isCpu || 64 < width then Strat.slow else Strat.fast

/-- Local-memory sizes fixed by `stencil<T>::init` for one device:
`(1, 1)` for the generic kernel; `(sizeof(T)*width,
sizeof(T)*(workgroup_size + lhalo + rhalo))` for the tiled kernel. -/
def init_local_sizes (sizeofT : Nat) (isCpu : Bool)
    (width wgs lhalo rhalo : Nat) : Nat × Nat :=
  match select_strat isCpu width with
  | Strat.slow => (1, 1)
  | Strat.fast => (sizeofT * width, sizeofT * (wgs + lhalo + rhalo))

/-- Construction-time data of one `stencil<T>` instance: partition sizes,
halo widths, coefficients, and the per-device CPU flag and workgroup size
that `init` consulted. -/
structure Cfg where
  ps : List Nat
  lhalo : Nat
  rhalo : Nat
  st : Nat → Int
  cpu : Nat → Bool
  wgs : Nat → Nat

/-- Stencil width: `lhalo + rhalo + 1` elements. -/
def width (cfg : Cfg) : Nat := cfg.lhalo + cfg.rhalo + 1

/-- `stencil<T>::convolve(x, y, alpha, beta)`: exchange halos, then for each
nonempty partition launch the kernel chosen at construction with arguments
`(psize, has_left, has_right, lhalo, rhalo, s, x(d), dbuf[d], y(d), alpha,
beta, …)`.  The result maps every global output index to its stored value
(indices owned by no partition keep their previous value: no kernel is
launched for an empty partition). -/
def convolve (cfg : Cfg) (st : HaloState) (y : Nat → Int) (alpha beta : Int) :
    Nat → Int :=
  let st1 := exchange_halos cfg.ps cfg.lhalo cfg.rhalo st
  fun g =>
    (owner cfg.ps g).elim (y g) fun d =>
      let n := part_size cfg.ps d
      let base := part_start cfg.ps d
      let idx := g - base
      let hl := decide (0 < d)
      let hr := decide (d + 1 < cfg.ps.length)
      let xloc : Int → Int := fun i => st1.x ((base : Int) + i).toNat
      let xrem : Int → Int := fun i => st1.dbuf d i.toNat
      if select_strat (cfg.cpu d) (width cfg) = Strat.slow
      then slow_conv_elem n hl hr cfg.lhalo cfg.rhalo cfg.st xloc xrem (y g) alpha beta idx
      else fast_conv_elem n hl hr cfg.lhalo cfg.rhalo cfg.st xloc xrem (y g) alpha beta
        (cfg.wgs d) idx

/-- The specification-side convolution value at element `idx` of partition
`d`: the §4.1 weighted sum of boundary-aware reads
`Σ_{j=-lhalo}^{rhalo} s[lhalo+j] * read_x(idx+j, …)`, taken over the
post-exchange halo state. -/
def stencil_conv (cfg : Cfg) (st : HaloState) (d idx : Nat) : Int :=
  let st1 := exchange_halos cfg.ps cfg.lhalo cfg.rhalo st
  let base := part_start cfg.ps d
  slow_conv_sum (part_size cfg.ps d) (decide (0 < d)) (decide (d + 1 < cfg.ps.length))
    cfg.lhalo cfg.rhalo cfg.st
    (fun i => st1.x ((base : Int) + i).toNat) (fun i => st1.dbuf d i.toNat) idx

/-- Derived left halo width of `stencil_base<T>::stencil_base`
(`int lhalo = center`). -/
def ctor_lhalo (center : Nat) : Int := (center : Int)

/-- Derived right halo width (`int rhalo = width - center - 1`, the unsigned
computation converted to `int`; in every case in which it matters the signed
value is `width - center - 1`). -/
def ctor_rhalo (w center : Nat) : Int := (w : Int) - (center : Int) - 1

/-- Conjunction of the constructor's assertions, in source order:
`assert(queue.size()); assert(lhalo >= 0); assert(rhalo >= 0);
assert(width); assert(center < width);`. -/
def ctor_asserts (nq w center : Nat) : Bool :=
  decide (0 < nq) && decide (0 ≤ ctor_lhalo center)
    && decide (0 ≤ ctor_rhalo w center) && decide (0 < w) && decide (center < w)

/-- The deferred convolution expression `conv<S, V>`: references to the
stencil and the input, plus a scale. -/
structure ConvExpr (S V : Type) where
  s : S
  x : V
  scale : Int

/-- The `conv(const S &s, const V &x)` constructor: `scale` starts at 1. -/
def mk_conv {S V : Type} (s : S) (x : V) : ConvExpr S V := ⟨s, x, 1⟩

/-- `operator*(const stencil<T> &s, const vector<T> &x)`. -/
def stencil_mul_vec {S V : Type} (s : S) (x : V) : ConvExpr S V := mk_conv s x

/-- `operator*(const vector<T> &x, const stencil<T> &s)`. -/
def vec_mul_stencil {S V : Type} (x : V) (s : S) : ConvExpr S V := mk_conv s x

/-- Arguments `(alpha, beta)` that `conv<S, V>::apply<negate, append>`
passes to `convolve`: `alpha = append ? 1 : 0`,
`beta = negate ? -scale : scale`. -/
def conv_apply_args {S V : Type} (c : ConvExpr S V) (neg app : Bool) : Int × Int :=
  (if app then 1 else 0, if neg then -c.scale else c.scale)

/-! ## Helper lemmas -/

/-- Partition starts are consecutive prefix sums. -/
theorem part_start_succ (ps : List Nat) (d : Nat) :
    part_start ps (d + 1) = part_start ps d + part_size ps d := by
  unfold part_start part_size
  rw [List.take_succ, List.sum_append]
  cases h : ps[d]? <;> simp [List.getD_eq_getElem?_getD, h]

/-- Unfolding a partition start one list element at a time. -/
theorem part_start_cons_succ (p : Nat) (t : List Nat) (d : Nat) :
    part_start (p :: t) (d + 1) = p + part_start t d := by
  simp [part_start, List.take_succ_cons]

/-- A partition start never exceeds the total vector length. -/
theorem part_start_le_sum (ps : List Nat) (d : Nat) : part_start ps d ≤ ps.sum := by
  unfold part_start
  conv_rhs => rw [← List.take_append_drop d ps]
  rw [List.sum_append]
  exact Nat.le_add_right _ _

/-- An owning partition is in range and nonempty, and owns its index. -/
theorem owner_some {ps : List Nat} {g d : Nat} (h : owner ps g = some d) :
    d < ps.length ∧ part_size ps d ≠ 0
      ∧ part_start ps d ≤ g ∧ g < part_start ps d + part_size ps d := by
  induction ps generalizing g d with
  | nil => simp [owner] at h
  | cons p t ih =>
    rw [owner] at h
    by_cases hg : g < p
    · rw [if_pos hg] at h
      cases h
      refine ⟨by simp, ?_, ?_, ?_⟩ <;>
        simp [part_size, part_start] <;> omega
    · rw [if_neg hg] at h
      rcases Option.map_eq_some'.mp h with ⟨d', hd', rfl⟩
      obtain ⟨h1, h2, h3, h4⟩ := ih hd'
      have hps : part_size (p :: t) (d' + 1) = part_size t d' := by
        simp [part_size, List.getD_cons_succ]
      refine ⟨by simpa using h1, by rw [hps]; exact h2, ?_, ?_⟩
      · rw [part_start_cons_succ]
        omega
      · rw [part_start_cons_succ, hps]
        omega

/-- A global index inside a partition is owned by that partition. -/
theorem owner_of_lt {ps : List Nat} {d idx : Nat} (h : idx < part_size ps d) :
    owner ps (part_start ps d + idx) = some d := by
  induction ps generalizing d with
  | nil => simp [part_size] at h
  | cons p t ih =>
    cases d with
    | zero =>
      simp only [part_size, List.getD] at h
      simp only [part_start, List.take_zero, List.sum_nil, Nat.zero_add, owner]
      rw [if_pos (by simpa using h)]
    | succ d =>
      simp only [part_size, List.getD_cons_succ] at h
      have hst : part_start (p :: t) (d + 1) = p + part_start t d := by
        simp [part_start, List.take_succ_cons]
      rw [owner, hst, if_neg (by omega)]
      have : p + part_start t d + idx - p = part_start t d + idx := by omega
      rw [this, ih h]
      rfl

/-- The two read ranges of the tiled kernel's sum: for every stencil offset,
the tile entry `X[l_id + j]` holds exactly the boundary-aware read of the
global offset `idx + j - lhalo` that the generic kernel performs. -/
theorem fast_conv_sum_eq_slow (n : Nat) (hl hr : Bool) (lh rh : Nat)
    (s : Nat → Int) (xloc xrem : Int → Int) (bs idx : Nat) (hbs : 0 < bs) :
    fast_conv_sum n hl hr lh rh s xloc xrem bs idx
      = slow_conv_sum n hl hr lh rh s xloc xrem idx := by
  unfold fast_conv_sum slow_conv_sum
  refine Finset.sum_congr rfl fun j hj => ?_
  rw [Finset.mem_range] at hj
  have hmod : idx % bs < bs := Nat.mod_lt _ hbs
  unfold fast_S fast_X
  have h1 : (0 : Int) ≤ ((idx % bs : Nat) : Int) + (j : Int) := by positivity
  have h2 : ((idx % bs : Nat) : Int) + (j : Int)
      < (bs : Int) + (lh : Int) + (rh : Int) := by omega
  rw [if_pos hj, if_pos ⟨h1, h2⟩]
  have harg : ((idx : Int) - ((idx % bs : Nat) : Int))
      + (((idx % bs : Nat) : Int) + (j : Int)) - (lh : Int)
      = (idx : Int) + (j : Int) - (lh : Int) := by ring
  rw [harg]

/-- Elementwise agreement of the two generated kernel bodies. -/
theorem fast_conv_elem_eq_slow (n : Nat) (hl hr : Bool) (lh rh : Nat)
    (s : Nat → Int) (xloc xrem : Int → Int) (yold alpha beta : Int)
    (bs idx : Nat) (hbs : 0 < bs) :
    fast_conv_elem n hl hr lh rh s xloc xrem yold alpha beta bs idx
      = slow_conv_elem n hl hr lh rh s xloc xrem yold alpha beta idx := by
  unfold fast_conv_elem slow_conv_elem
  rw [fast_conv_sum_eq_slow n hl hr lh rh s xloc xrem bs idx hbs]

/-- At most `lhalo` elements are read from the left neighbour side. -/
theorem l_size_le (ps : List Nat) (lh d : Nat) : l_size ps lh d ≤ lh := by
  unfold l_size l_begin
  omega

/-- At most `rhalo` elements are read from the right neighbour side. -/
theorem r_size_le (ps : List Nat) (rh d : Nat) : r_size ps rh d ≤ rh := by
  unfold r_size r_end r_begin
  omega

/-- Value of the host slot of partition `d` after the read phase: the left
read covers offsets `[lhalo - l_size, lhalo)`, the right read covers
`[lhalo, lhalo + r_size)`, everything else is untouched. -/
theorem slot_read_at (ps : List Nat) (lh rh : Nat) (x : Nat → Int) (d : Nat)
    (h0 : Nat → Int) (k : Nat) :
    slot_read ps lh rh x d h0 k
      = if (0 < d ∧ 0 < lh) ∧ lh - l_size ps lh d ≤ k ∧ k < lh
        then x (l_begin ps lh d + (k - (lh - l_size ps lh d)))
        else if (d + 1 < ps.length ∧ 0 < rh) ∧ lh ≤ k ∧ k < lh + r_size ps rh d
        then x (r_begin ps d + (k - lh))
        else h0 k := by
  have hls := l_size_le ps lh d
  have hrs := r_size_le ps rh d
  simp only [slot_read, writeRange]
  split_ifs <;> first | rfl | omega | (congr 1; omega)

/-- Closed form of the fill phase at one offset, in terms of the post-read
slot contents `h`: the left fill writes `[0, lhalo - l_size)`, the right
fill writes `[lhalo + r_size, lhalo + rhalo)`, everything else is the
post-read value. -/
theorem slot_write_at (ps : List Nat) (lh rh : Nat) (x : Nat → Int) (d : Nat)
    (h : Nat → Int) (k : Nat) :
    slot_write ps lh rh x d h k
      = if (0 < d ∧ 0 < lh) ∧ k < lh - l_size ps lh d
        then (if 0 < l_size ps lh d then h (lh - l_size ps lh d) else x 0)
        else if (d + 1 < ps.length ∧ 0 < rh) ∧ lh + r_size ps rh d ≤ k ∧ k < lh + rh
        then (if 0 < r_size ps rh d then h (lh + r_size ps rh d - 1) else x (ps.sum - 1))
        else h k := by
  have hls := l_size_le ps lh d
  have hrs := r_size_le ps rh d
  simp only [slot_write, writeRange]
  split_ifs <;> first | rfl | omega

/-- Value of the host slot in the left halo region `[0, lhalo)` after both
phases: the read data where it landed, the replicated first read element
before it, or `x[0]` when the left read was empty. -/
theorem slot_final_left (ps : List Nat) (lh rh : Nat) (x : Nat → Int) (d : Nat)
    (h0 : Nat → Int) (hd : 0 < d) (hlh : 0 < lh) (k : Nat) (hk : k < lh) :
    slot_write ps lh rh x d (slot_read ps lh rh x d h0) k
      = if k < lh - l_size ps lh d
        then (if 0 < l_size ps lh d then x (l_begin ps lh d) else x 0)
        else x (l_begin ps lh d + (k - (lh - l_size ps lh d))) := by
  have hls := l_size_le ps lh d
  have hrs := r_size_le ps rh d
  rw [slot_write_at]
  simp only [slot_read_at]
  split_ifs <;> first | rfl | omega | (congr 1; omega)

/-- Value of the host slot in the right halo region `[lhalo, lhalo+rhalo)`
after both phases: the read data where it landed, the replicated last read
element after it, or `x[x.size()-1]` when the right read was empty. -/
theorem slot_final_right (ps : List Nat) (lh rh : Nat) (x : Nat → Int) (d : Nat)
    (h0 : Nat → Int) (hd : d + 1 < ps.length) (hrh : 0 < rh)
    (k : Nat) (hk1 : lh ≤ k) (hk2 : k < lh + rh) :
    slot_write ps lh rh x d (slot_read ps lh rh x d h0) k
      = if k < lh + r_size ps rh d
        then x (r_begin ps d + (k - lh))
        else (if 0 < r_size ps rh d then x (r_end ps rh d - 1) else x (ps.sum - 1)) := by
  have hls := l_size_le ps lh d
  have hrs := r_size_le ps rh d
  have he : r_end ps rh d = min (r_begin ps d + rh) ps.sum := rfl
  have hs : r_size ps rh d = r_end ps rh d - r_begin ps d := rfl
  rw [slot_write_at]
  simp only [slot_read_at]
  split_ifs <;> first | rfl | omega | (congr 1; omega)

/-- The halo window a kernel may read from its device buffer (offsets
`[0, lhalo)` when it has a left neighbour, `[lhalo, lhalo+rhalo)` when it
has a right one) is fully overwritten by the exchange: its contents do not
depend on the previous host or device buffer contents. -/
theorem exchange_dbuf_read_region (ps : List Nat) (lh rh : Nat) (x : Nat → Int)
    (hb1 hb2 db1 db2 : Nat → Nat → Int) (d k : Nat)
    (hps : part_size ps d ≠ 0) (hd : d < ps.length)
    (hk : (0 < d ∧ k < lh) ∨ (d + 1 < ps.length ∧ lh ≤ k ∧ k < lh + rh)) :
    exchange_dbuf ps lh rh x hb1 db1 d k = exchange_dbuf ps lh rh x hb2 db2 d k := by
  have hne : ¬(ps.length ≤ 1 ∨ lh + rh = 0) := by
    rcases hk with ⟨h1, h2⟩ | ⟨h1, h2, h3⟩ <;> omega
  have hguard : part_size ps d ≠ 0
      ∧ ((0 < d ∧ 0 < lh) ∨ (d + 1 < ps.length ∧ 0 < rh)) := by
    rcases hk with ⟨h1, h2⟩ | ⟨h1, h2, h3⟩
    · exact ⟨hps, Or.inl ⟨h1, by omega⟩⟩
    · exact ⟨hps, Or.inr ⟨h1, by omega⟩⟩
  unfold exchange_dbuf
  rw [if_neg hne, if_neg hne, if_pos hguard, if_pos hguard]
  rcases hk with ⟨h1, h2⟩ | ⟨h1, h2, h3⟩
  · rw [slot_final_left ps lh rh x d (hb1 d) h1 (by omega) k h2,
      slot_final_left ps lh rh x d (hb2 d) h1 (by omega) k h2]
  · rw [slot_final_right ps lh rh x d (hb1 d) h1 (by omega) k h2 h3,
      slot_final_right ps lh rh x d (hb2 d) h1 (by omega) k h2 h3]

/-- Congruence for `read_x` in the remote (halo) buffer: only offsets
`[0, lhalo)` (with a left neighbour) and `[lhalo, lhalo+rhalo)` (with a
right neighbour) are ever dereferenced. -/
theorem read_x_congr (g_id : Int) (n : Nat) (hl hr : Bool) (lh rh : Nat)
    (xloc xr1 xr2 : Int → Int)
    (hL : hl = true → ∀ k : Int, 0 ≤ k → k < (lh : Int) → xr1 k = xr2 k)
    (hR : hr = true → ∀ k : Int, (lh : Int) ≤ k → k < (lh : Int) + (rh : Int) →
      xr1 k = xr2 k) :
    read_x g_id n hl hr (lh : Int) (rh : Int) xloc xr1
      = read_x g_id n hl hr (lh : Int) (rh : Int) xloc xr2 := by
  unfold read_x
  split_ifs <;>
    first
      | rfl
      | exact hL (by assumption) _ (by omega) (by omega)
      | exact hR (by assumption) _ (by omega) (by omega)

/-- Reduction of the dispatcher to the generic kernel body on an owned
element: for every strategy the stored value is the `slow_conv` one
(`fast_conv_elem_eq_slow` bridges the tiled case). -/
theorem convolve_elem (cfg : Cfg) (st : HaloState) (y : Nat → Int)
    (alpha beta : Int) (d idx : Nat)
    (hidx : idx < part_size cfg.ps d) (hw : 0 < cfg.wgs d) :
    convolve cfg st y alpha beta (part_start cfg.ps d + idx)
      = slow_conv_elem (part_size cfg.ps d) (decide (0 < d))
          (decide (d + 1 < cfg.ps.length)) cfg.lhalo cfg.rhalo cfg.st
          (fun i => (exchange_halos cfg.ps cfg.lhalo cfg.rhalo st).x
            ((part_start cfg.ps d : Int) + i).toNat)
          (fun i => (exchange_halos cfg.ps cfg.lhalo cfg.rhalo st).dbuf d i.toNat)
          (y (part_start cfg.ps d + idx)) alpha beta idx := by
  have ho := @owner_of_lt cfg.ps d idx hidx
  simp only [convolve, ho, Option.elim, Nat.add_sub_cancel_left]
  by_cases hc : select_strat (cfg.cpu d) (width cfg) = Strat.slow
  · rw [if_pos hc]
  · rw [if_neg hc, fast_conv_elem_eq_slow]
    exact hw

/-! ## Claim theorems -/

/-- C2: the in-kernel read policy `read_x` returns the local element for
in-range offsets; for `g_id < 0` the halo element at `lhalo + g_id` when
`has_left` and that index is non-negative, zero when `has_left` and it is
negative, and the clamped local element at 0 without a left neighbour; for
`g_id ≥ n` symmetrically the halo element at `lhalo + g_id - n` when
`has_right` and `g_id < n + rhalo`, zero when `has_right` and
`g_id ≥ n + rhalo`, and the clamped local element at `n - 1` without a
right neighbour. -/
theorem read_x_policy (g_id : Int) (n : Nat) (hl hr : Bool) (lh rh : Int)
    (xloc xrem : Int → Int) :
    (0 ≤ g_id → g_id < (n : Int) →
      read_x g_id n hl hr lh rh xloc xrem = xloc g_id)
    ∧ (g_id < 0 → hl = true → 0 ≤ lh + g_id →
      read_x g_id n hl hr lh rh xloc xrem = xrem (lh + g_id))
    ∧ (g_id < 0 → hl = true → lh + g_id < 0 →
      read_x g_id n hl hr lh rh xloc xrem = 0)
    ∧ (g_id < 0 → hl = false →
      read_x g_id n hl hr lh rh xloc xrem = xloc 0)
    ∧ ((n : Int) ≤ g_id → hr = true → g_id < (n : Int) + rh →
      read_x g_id n hl hr lh rh xloc xrem = xrem (lh + g_id - (n : Int)))
    ∧ ((n : Int) ≤ g_id → hr = true → (n : Int) + rh ≤ g_id →
      read_x g_id n hl hr lh rh xloc xrem = 0)
    ∧ ((n : Int) ≤ g_id → hr = false →
      read_x g_id n hl hr lh rh xloc xrem = xloc ((n : Int) - 1)) := by
  unfold read_x
  refine ⟨fun ha hb => ?_, fun ha hb hc => ?_, fun ha hb hc => ?_,
    fun ha hb => ?_, fun ha hb hc => ?_, fun ha hb hc => ?_, fun ha hb => ?_⟩ <;>
    split_ifs <;> first | rfl | omega | simp_all

/-- Witness for C2: a left-halo hit and a right-edge clamp at concrete
inputs. -/
theorem read_x_policy_witness :
    read_x (-1) 5 true true 2 1 (fun i => i) (fun i => 10 * i) = 10
    ∧ read_x 7 5 false false 2 1 (fun i => i) (fun i => 10 * i) = 4 := by
  constructor
  · rw [(read_x_policy (-1) 5 true true 2 1 (fun i => i) (fun i => 10 * i)).2.1
      (by decide) rfl (by decide)]
    decide
  · rw [(read_x_policy 7 5 false false 2 1 (fun i => i)
      (fun i => 10 * i)).2.2.2.2.2.2 (by decide) rfl]
    decide

/-- C8: the constructor's assertions hold exactly when the device list is
non-empty, the width is positive and the centre lies in `[0, width)`; under
those preconditions the derived halos are `lhalo = center`,
`rhalo = width - center - 1`, both non-negative, with
`lhalo + rhalo + 1 = width`. -/
theorem ctor_assertions (nq w center : Nat) :
    (ctor_asserts nq w center = true ↔ (0 < nq ∧ 0 < w ∧ center < w))
    ∧ (0 < nq → 0 < w → center < w →
        ctor_lhalo center = (center : Int)
          ∧ ctor_rhalo w center = (w : Int) - (center : Int) - 1
          ∧ 0 ≤ ctor_rhalo w center
          ∧ ctor_lhalo center + ctor_rhalo w center + 1 = (w : Int)) := by
  constructor
  · unfold ctor_asserts ctor_lhalo ctor_rhalo
    simp only [Bool.and_eq_true, decide_eq_true_eq]
    omega
  · intro h1 h2 h3
    refine ⟨rfl, rfl, ?_, ?_⟩ <;> simp only [ctor_lhalo, ctor_rhalo] <;> omega

/-- Witness for C8 at `(queues, width, center) = (2, 3, 1)`. -/
theorem ctor_assertions_witness :
    ctor_asserts 2 3 1 = true
    ∧ ctor_lhalo 1 + ctor_rhalo 3 1 + 1 = (3 : Int) :=
  ⟨((ctor_assertions 2 3 1).1).mpr ⟨by decide, by decide, by decide⟩,
    ((ctor_assertions 2 3 1).2 (by decide) (by decide) (by decide)).2.2.2⟩

/-- C5: `init` chooses the generic kernel exactly for a CPU-class device or
a stencil wider than 64 coefficients, and otherwise the tiled kernel with
local-memory sizes `sizeof(T)*width` for the coefficient tile and
`sizeof(T)*(workgroup_size + lhalo + rhalo)` for the input tile; both the
strategy and the sizes are functions of construction-time data only. -/
theorem strategy_selection (szT : Nat) (c : Bool) (w wgs lh rh : Nat) :
    (select_strat c w = Strat.slow ↔ (c = true ∨ 64 < w))
    ∧ (select_strat c w = Strat.fast →
        init_local_sizes szT c w wgs lh rh = (szT * w, szT * (wgs + lh + rh)))
    ∧ (select_strat c w = Strat.slow →
        init_local_sizes szT c w wgs lh rh = (1, 1)) := by
  refine ⟨?_, fun h => ?_, fun h => ?_⟩
  · unfold select_strat
    cases c <;> split_ifs <;> simp_all
  · unfold init_local_sizes
    rw [h]
  · unfold init_local_sizes
    rw [h]

/-- Witness for C5: a non-CPU device with width 3 gets the tiled kernel and
its tile sizes; a CPU device gets the generic kernel. -/
theorem strategy_selection_witness :
    init_local_sizes 8 false 3 256 1 1 = (8 * 3, 8 * (256 + 1 + 1))
    ∧ select_strat true 3 = Strat.slow :=
  ⟨(strategy_selection 8 false 3 256 1 1).2.1 (by decide),
    ((strategy_selection 8 true 3 256 1 1).1).mpr (Or.inl rfl)⟩

/-- C10: `s * x` and `x * s` build the same deferred convolution expression
(same stencil, same input, scale 1), and applying it passes
`alpha = append ? 1 : 0` and `beta = negate ? -scale : scale` to
`convolve`. -/
theorem mul_shorthand_commutes {S V : Type} (s : S) (x : V) :
    stencil_mul_vec s x = vec_mul_stencil x s
    ∧ (stencil_mul_vec s x).s = s
    ∧ (stencil_mul_vec s x).x = x
    ∧ (stencil_mul_vec s x).scale = 1
    ∧ (∀ sc : Int,
        conv_apply_args (ConvExpr.mk s x sc) false false = (0, sc)
        ∧ conv_apply_args (ConvExpr.mk s x sc) true false = (0, -sc)
        ∧ conv_apply_args (ConvExpr.mk s x sc) false true = (1, sc)) :=
  ⟨rfl, rfl, rfl, rfl, fun _ => ⟨rfl, rfl, rfl⟩⟩

/-- C7: with a single partition or a zero-width halo, `exchange_halos`
returns immediately: the host halo buffer, the device halo buffers and the
input vector are unchanged, and no neighbour read and no device upload is
issued. -/
theorem exchange_noop (ps : List Nat) (lh rh : Nat) (st : HaloState)
    (h : ps.length ≤ 1 ∨ lh + rh = 0) :
    exchange_halos ps lh rh st = st
    ∧ exchange_read_count ps lh rh = 0
    ∧ exchange_upload_count ps lh rh = 0 := by
  refine ⟨?_, ?_, ?_⟩
  · unfold exchange_halos exchange_hbuf exchange_dbuf
    rw [if_pos h, if_pos h]
  · unfold exchange_read_count
    rw [if_pos h]
  · unfold exchange_upload_count
    rw [if_pos h]

/-- Witness for C7 on one partition of five elements. -/
theorem exchange_noop_witness :
    exchange_halos [5] 1 1 ⟨fun g => (g : Int), fun _ _ => 3, fun _ _ => 4⟩
        = ⟨fun g => (g : Int), fun _ _ => 3, fun _ _ => 4⟩
    ∧ exchange_read_count [5] 1 1 = 0
    ∧ exchange_upload_count [5] 1 1 = 0 :=
  exchange_noop [5] 1 1 _ (by decide)

/-- C4: the generic and tiled kernel bodies agree on every element: with the
same partition size, neighbour flags, halo widths, coefficients, local and
remote (halo) data, previous output value, `alpha` and `beta`, the value the
tiled kernel stores at an output index equals the value the generic kernel
stores there. -/
theorem strategy_equivalence (n : Nat) (hl hr : Bool) (lh rh : Nat)
    (s : Nat → Int) (xloc xrem : Int → Int) (yold alpha beta : Int)
    (bs idx : Nat) (hbs : 0 < bs) (hidx : idx < n) :
    fast_conv_elem n hl hr lh rh s xloc xrem yold alpha beta bs idx
      = slow_conv_elem n hl hr lh rh s xloc xrem yold alpha beta idx :=
  fast_conv_elem_eq_slow n hl hr lh rh s xloc xrem yold alpha beta bs idx hbs

/-- Witness for C4 at a concrete configuration (width 3, block size 2,
element 1 of a 4-element partition with both neighbours). -/
theorem strategy_equivalence_witness :
    fast_conv_elem 4 true true 1 1 (fun j => (j : Int) + 1)
        (fun i => 2 * i) (fun i => 7 - i) 5 3 2 2 1
      = slow_conv_elem 4 true true 1 1 (fun j => (j : Int) + 1)
        (fun i => 2 * i) (fun i => 7 - i) 5 3 2 1 :=
  strategy_equivalence 4 true true 1 1 (fun j => (j : Int) + 1)
    (fun i => 2 * i) (fun i => 7 - i) 5 3 2 2 1 (by decide) (by decide)

/-- Congruence of the generic kernel body in the remote halo buffer over
the offsets it can dereference. -/
theorem slow_conv_elem_xrem_congr (n : Nat) (hl hr : Bool) (lh rh : Nat)
    (s : Nat → Int) (xloc xr1 xr2 : Int → Int) (yold alpha beta : Int) (idx : Nat)
    (hL : hl = true → ∀ k : Int, 0 ≤ k → k < (lh : Int) → xr1 k = xr2 k)
    (hR : hr = true → ∀ k : Int, (lh : Int) ≤ k → k < (lh : Int) + (rh : Int) →
      xr1 k = xr2 k) :
    slow_conv_elem n hl hr lh rh s xloc xr1 yold alpha beta idx
      = slow_conv_elem n hl hr lh rh s xloc xr2 yold alpha beta idx := by
  have hsum : slow_conv_sum n hl hr lh rh s xloc xr1 idx
      = slow_conv_sum n hl hr lh rh s xloc xr2 idx := by
    unfold slow_conv_sum
    exact Finset.sum_congr rfl fun j hj => by
      rw [read_x_congr _ _ _ _ _ _ _ _ _ hL hR]
  unfold slow_conv_elem
  rw [hsum]

/-- C1: on every owned output element, `convolve(x, y, alpha, beta)` stores
`alpha * y_old + beta * (stencil ⊛ x)` with `⊛` the §4.1 boundary-aware
sum over the exchanged halos; moreover with `alpha = 0` the stored value
does not depend on `y`'s prior contents. -/
theorem convolve_contract (cfg : Cfg) (st : HaloState) (y : Nat → Int)
    (alpha beta : Int) (d idx : Nat)
    (hidx : idx < part_size cfg.ps d) (hw : 0 < cfg.wgs d) :
    convolve cfg st y alpha beta (part_start cfg.ps d + idx)
      = alpha * y (part_start cfg.ps d + idx) + beta * stencil_conv cfg st d idx
    ∧ (alpha = 0 → ∀ y1 y2 : Nat → Int,
        convolve cfg st y1 alpha beta (part_start cfg.ps d + idx)
          = convolve cfg st y2 alpha beta (part_start cfg.ps d + idx)) := by
  constructor
  · rw [convolve_elem cfg st y alpha beta d idx hidx hw]
    simp only [slow_conv_elem, stencil_conv]
    by_cases ha : alpha = 0
    · subst ha
      simp
    · rw [if_pos ha]
  · intro ha y1 y2
    rw [convolve_elem cfg st y1 alpha beta d idx hidx hw,
      convolve_elem cfg st y2 alpha beta d idx hidx hw]
    subst ha
    simp [slow_conv_elem]

/-- Witness for C1: device 1 of a `[2, 3]` partitioning, element 0, with
`alpha = 2`, `beta = 3`. -/
theorem convolve_contract_witness :
    convolve ⟨[2, 3], 1, 1, fun j => ([1, -2, 1].getD j 0 : Int),
        fun _ => false, fun _ => 2⟩
      ⟨fun g => ([0, 1, 4, 9, 16].getD g 0 : Int), fun _ _ => 0, fun _ _ => 0⟩
      (fun g => (g : Int)) 2 3 (part_start [2, 3] 1 + 0)
      = 2 * ((part_start [2, 3] 1 + 0 : Nat) : Int)
        + 3 * stencil_conv
            ⟨[2, 3], 1, 1, fun j => ([1, -2, 1].getD j 0 : Int),
              fun _ => false, fun _ => 2⟩
            ⟨fun g => ([0, 1, 4, 9, 16].getD g 0 : Int), fun _ _ => 0, fun _ _ => 0⟩
            1 0 :=
  (convolve_contract _ _ _ 2 3 1 0 (by decide) (by decide)).1

/-- C3: in the write phase, for a partition with a neighbour on a side,
when the neighbour-side read returned fewer elements than the requested
halo count, the missing leading (resp. trailing) host-slot entries are
filled with the nearest read element (the first, `x[l_begin]`, on the left;
the last, `x[r_end - 1]`, on the right), and when the read returned nothing
at all they are filled from the partition's own first (resp. last) element;
the merged slot is then what is uploaded to the device buffer. -/
theorem exchange_edge_replication (ps : List Nat) (lh rh : Nat) (x : Nat → Int)
    (h0 db0 : Nat → Nat → Int) (d : Nat)
    (hmulti : 1 < ps.length) (hwidth : 0 < lh + rh) (hps : part_size ps d ≠ 0) :
    (0 < d → 0 < lh → ∀ k, k < lh - l_size ps lh d →
      exchange_hbuf ps lh rh x h0 d k
        = (if 0 < l_size ps lh d then x (l_begin ps lh d) else x (part_start ps d)))
    ∧ (d + 1 < ps.length → 0 < rh → ∀ k, lh + r_size ps rh d ≤ k → k < lh + rh →
      exchange_hbuf ps lh rh x h0 d k
        = (if 0 < r_size ps rh d then x (r_end ps rh d - 1)
           else x (part_start ps d + part_size ps d - 1)))
    ∧ (((0 < d ∧ 0 < lh) ∨ (d + 1 < ps.length ∧ 0 < rh)) → ∀ k,
      exchange_dbuf ps lh rh x h0 db0 d k = exchange_hbuf ps lh rh x h0 d k) := by
  have hne : ¬(ps.length ≤ 1 ∨ lh + rh = 0) := by omega
  have hls := l_size_le ps lh d
  have hrs := r_size_le ps rh d
  refine ⟨fun hd hlh k hk => ?_, fun hd hrh k hk1 hk2 => ?_, fun hg k => ?_⟩
  · unfold exchange_hbuf
    rw [if_neg hne, if_pos hps,
      slot_final_left ps lh rh x d (h0 d) hd hlh k (by omega), if_pos hk]
    by_cases hls0 : 0 < l_size ps lh d
    · rw [if_pos hls0, if_pos hls0]
    · rw [if_neg hls0, if_neg hls0]
      congr 1
      have h1 : l_size ps lh d = part_start ps d - (part_start ps d - lh) := rfl
      omega
  · unfold exchange_hbuf
    rw [if_neg hne, if_pos hps,
      slot_final_right ps lh rh x d (h0 d) hd hrh k (by omega) hk2, if_neg (by omega)]
    by_cases hrs0 : 0 < r_size ps rh d
    · rw [if_pos hrs0, if_pos hrs0]
    · rw [if_neg hrs0, if_neg hrs0]
      congr 1
      have hsucc := part_start_succ ps d
      have hle := part_start_le_sum ps (d + 1)
      have hrb : r_begin ps d = part_start ps (d + 1) := rfl
      have he : r_end ps rh d = min (r_begin ps d + rh) ps.sum := rfl
      have hs : r_size ps rh d = r_end ps rh d - r_begin ps d := rfl
      omega
  · unfold exchange_dbuf exchange_hbuf
    rw [if_neg hne, if_neg hne, if_pos ⟨hps, hg⟩, if_pos hps]

/-- Witness for C3: partitioning `[1, 2]`, `lhalo = 2`, partition 1's left
read gets only one element (the global edge is one position away), so slot
offset 0 is filled by replicating the nearest read element `x[0] = 5`. -/
theorem exchange_edge_replication_witness :
    exchange_hbuf [1, 2] 2 1 (fun i => (i : Int) + 5) (fun _ _ => 0) 1 0 = 5 := by
  rw [(exchange_edge_replication [1, 2] 2 1 (fun i => (i : Int) + 5) (fun _ _ => 0)
      (fun _ _ => 0) 1 (by decide) (by decide) (by decide)).1
    (by decide) (by decide) 0 (by decide)]
  decide

/-- C9: `convolve` is deterministic across repetition: its output depends
only on the partitioning, coefficients, input vector, previous output,
`alpha` and `beta` — not on the mutable halo-buffer state left behind by
earlier calls.  Hence two runs from the same pre-call `x`, `y`, `alpha`,
`beta` (with arbitrary, possibly different, host/device halo contents)
store identical values everywhere. -/
theorem convolve_deterministic (cfg : Cfg) (x y : Nat → Int) (alpha beta : Int)
    (hb1 hb2 db1 db2 : Nat → Nat → Int) (hw : ∀ e, 0 < cfg.wgs e) (g : Nat) :
    convolve cfg ⟨x, hb1, db1⟩ y alpha beta g
      = convolve cfg ⟨x, hb2, db2⟩ y alpha beta g := by
  cases ho : owner cfg.ps g with
  | none => simp only [convolve, ho, Option.elim]
  | some d =>
    obtain ⟨hdlen, hps, hle, hlt⟩ := owner_some ho
    have hg : g = part_start cfg.ps d + (g - part_start cfg.ps d) := by omega
    have hidx : g - part_start cfg.ps d < part_size cfg.ps d := by omega
    rw [hg, convolve_elem cfg ⟨x, hb1, db1⟩ y alpha beta d _ hidx (hw d),
      convolve_elem cfg ⟨x, hb2, db2⟩ y alpha beta d _ hidx (hw d)]
    simp only [exchange_halos]
    apply slow_conv_elem_xrem_congr
    · intro hhl k hk0 hklh
      have hd0 : 0 < d := of_decide_eq_true hhl
      exact exchange_dbuf_read_region cfg.ps cfg.lhalo cfg.rhalo x hb1 hb2 db1 db2
        d k.toNat hps hdlen (Or.inl ⟨hd0, by omega⟩)
    · intro hhr k hk1 hk2
      have hd1 : d + 1 < cfg.ps.length := of_decide_eq_true hhr
      exact exchange_dbuf_read_region cfg.ps cfg.lhalo cfg.rhalo x hb1 hb2 db1 db2
        d k.toNat hps hdlen (Or.inr ⟨hd1, by omega, by omega⟩)

/-- Witness for C9: same call on the two-device example with zeroed versus
garbage halo buffers. -/
theorem convolve_deterministic_witness :
    convolve ⟨[2, 3], 1, 1, fun j => ([1, -2, 1].getD j 0 : Int),
        fun _ => false, fun _ => 2⟩
      ⟨fun g => ([0, 1, 4, 9, 16].getD g 0 : Int), fun _ _ => 0, fun _ _ => 0⟩
      (fun _ => 5) 1 1 2
      = convolve ⟨[2, 3], 1, 1, fun j => ([1, -2, 1].getD j 0 : Int),
          fun _ => false, fun _ => 2⟩
        ⟨fun g => ([0, 1, 4, 9, 16].getD g 0 : Int), fun _ _ => 7, fun _ _ => 9⟩
        (fun _ => 5) 1 1 2 :=
  convolve_deterministic _ _ _ 1 1 _ _ _ _ (fun _ => Nat.succ_pos 1) 2

/-- C6: the single-device width-3 second-difference stencil
(`coefficients [1, -2, 1]`, `center 1`) applied to `x = [0, 1, 4, 9, 16]`
with `alpha = 0`, `beta = 1` stores `y = [1, 2, 2, 2, -7]`: interior values
2, and edge-replication clamp at both boundaries
(`y[0] = 0 - 0 + 1 = 1`, `y[4] = 9 - 32 + 16 = -7`). -/
theorem concrete_second_difference :
    (List.range 5).map
      (convolve
        ⟨[5], 1, 1, fun j => ([1, -2, 1].getD j 0 : Int), fun _ => true, fun _ => 1⟩
        ⟨fun g => ([0, 1, 4, 9, 16].getD g 0 : Int), fun _ _ => 0, fun _ _ => 0⟩
        (fun _ => 0) 0 1)
      = [1, 2, 2, 2, -7] := by
  decide

end VexStencil
